import Mathlib

/-
Verification of the multi-docset search engine of `src/registry/docsetregistry.cpp`
(offline documentation browser).  Strings are embedded as lists of characters,
SQLite `LIKE` matching and the two-phase per-docset search are modelled
executably, and the registry / query-generation machinery is modelled as
explicit state passing.
-/

namespace Zeal

/-- Symbol names, paths and SQL patterns are modelled as lists of characters. -/
abbrev Str := List Char

/-- Does `s` begin with the segment `sep`?  (Models `QString` segment matching.) -/
def listStartsWith : Str → Str → Bool
  | [], _ => true
  | _ :: _, [] => false
  | c :: cs, d :: ds => c = d && listStartsWith cs ds

/-- Index of the first occurrence of the segment `sep` in `s`, or `none`.
Models `QString::indexOf(sep)` (`-1` becomes `none`). -/
def firstIdx (sep : Str) : Str → Option Nat
  | [] => none
  | c :: rest =>
    if listStartsWith sep (c :: rest) then some 0
    else (firstIdx sep rest).map (fun k => k + 1)

/-- Fuel-driven worker for `splitOnSep`; the fuel is at least the length of the
string, so the `0` case is unreachable. -/
def splitAux (sep : Str) : Nat → Str → Str → List Str
  | _, [], acc => [acc.reverse]
  | 0, s, acc => [acc.reverse ++ s]
  | fuel + 1, c :: rest, acc =>
    if listStartsWith sep (c :: rest) then
      acc.reverse :: splitAux sep fuel ((c :: rest).drop sep.length) []
    else
      splitAux sep fuel rest (c :: acc)

/-- Models `QString::split(sep)`: the list of segments of `s` between
non-overlapping left-to-right occurrences of `sep`. -/
def splitOnSep (sep s : Str) : List Str :=
  splitAux sep s.length s []

/-- ASCII lower-casing of one character, as SQLite `lower()` / case-insensitive
`LIKE` does for ASCII. -/
def lowerA (c : Char) : Char :=
  if 'A' ≤ c ∧ c ≤ 'Z' then Char.ofNat (c.toNat + 32) else c

/-- Fuel-driven worker for `likeMatch`; each step consumes at least one
character of the pattern or of the text. -/
def likeAux : Nat → Str → Str → Bool
  | 0, _, _ => false
  | fuel + 1, p, t =>
    match p, t with
    | [], [] => true
    | [], _ :: _ => false
    | '%' :: ps, ts =>
      likeAux fuel ps ts ||
        (match ts with
         | [] => false
         | _ :: ts2 => likeAux fuel ('%' :: ps) ts2)
    | '_' :: ps, ts =>
      (match ts with
       | [] => false
       | _ :: ts2 => likeAux fuel ps ts2)
    | '\\' :: c :: ps, ts =>
      (match ts with
       | [] => false
       | c2 :: ts2 => lowerA c = lowerA c2 && likeAux fuel ps ts2)
    | c :: ps, ts =>
      (match ts with
       | [] => false
       | c2 :: ts2 => lowerA c = lowerA c2 && likeAux fuel ps ts2)

/-- SQLite `pattern LIKE`-matching of `t` against pattern `p` with
`escape '\'`:  `%` matches any sequence, `_` any single character, `\c` the
literal character `c`, and literal comparison is ASCII case-insensitive. -/
def likeMatch (p t : Str) : Bool :=
  likeAux (p.length + t.length + 1) p t

/-- Strips a trailing parenthesized group, modelling the regular expression
match against the pattern  caret ([caret-paren]+)(?:\(.*\))?$  in
`normalizeName` (lines 180-182): when the name is a nonempty run of characters
other than a left parenthesis, optionally followed by a group that starts with
a left parenthesis and ends with a right parenthesis, the result is the run;
otherwise the regular expression does not match and the name is unchanged. -/
def stripParens (s : Str) : Str :=
  match firstIdx ['('] s with
  | none => s
  | some 0 => s
  | some (j + 1) =>
    if (s.drop (j + 1)).getLastD ' ' = ')' then s.take (j + 1) else s

/-- The first separator tried by `normalizeName`. -/
def sepDot : Str := ['.']

/-- The second separator tried by `normalizeName`. -/
def sepCC : Str := [':', ':']

/-- The third separator tried by `normalizeName`. -/
def sepSlash : Str := ['/']

/-- One iteration of the separator loop of `normalizeName`
(lines 184-192): if the separator occurs in the current display name at a
first index other than 0 and the row supplied no parent, the display name is
split on the separator, the last segment becoming the display name and the
second-to-last segment the parent name. -/
def splitStep (hintAbsent : Bool) (st : Str × Option Str) (sep : Str) :
    Str × Option Str :=
  match firstIdx sep st.1 with
  | none => st
  | some k =>
    if k ≠ 0 ∧ hintAbsent = true then
      let parts := splitOnSep sep st.1
      (parts.getLastD [], some (parts.dropLast.getLastD []))
    else st

/-- `DocsetRegistry::normalizeName` (lines 177-193): first strip a trailing
parenthesized group, then run the separator loop over `.`, `::`, `/` in that
order.  `initialParent = none` models a null `initialParent` argument; when a
parent hint is present no splitting occurs and the hint is kept. -/
def normalizeName (itemName : Str) (initialParent : Option Str) :
    Str × Option Str :=
  let stripped := stripParens itemName
  [sepDot, sepCC, sepSlash].foldl (splitStep initialParent.isNone)
    (stripped, initialParent)

/-- The decomposition rule exactly as the claim states it: only the FIRST
separator (in priority order `.`, `::`, `/`) that occurs in the stripped name
at a first index other than 0 is applied, splitting once on its last
occurrence; if no separator qualifies the name is unchanged. -/
def claimSplitRule (s : Str) : Str × Option Str :=
  let stripped := stripParens s
  match [sepDot, sepCC, sepSlash].find?
      (fun sep =>
        match firstIdx sep stripped with
        | some k => k != 0
        | none => false) with
  | some sep =>
    ((splitOnSep sep stripped).getLastD [],
      some ((splitOnSep sep stripped).dropLast.getLastD []))
  | none => (stripped, none)

/-- `s` ends with a parenthesized group: its last character is a right
parenthesis and a left parenthesis occurs before it. -/
def trailingParenGroup (s : Str) : Bool :=
  match s.getLast? with
  | some c => decide (c = ')') && decide ('(' ∈ s.dropLast)
  | none => false

/-- The two backing-store schema variants (`Docset::Type` tag): `dash` is the
flat `searchIndex` table, `zdash` the four-table `ztoken` join. -/
inductive DocsetType
  | dash
  | zdash
deriving DecidableEq

/-- One row of a docset's symbol table as the SQL queries expose it:
symbol name, type name, page path, and (for the `zdash` variant) an in-page
anchor. -/
structure Row where
  rname : Str
  rtype : Str
  rpath : Str
  ranchor : Str
deriving DecidableEq

/-- One ranked hit, `SearchResult(name, parentName, path, docsetName, query)`
as constructed in `_runQuery` and `relatedLinks`. -/
structure SearchResult where
  name : Str
  parentName : Str
  path : Str
  docsetName : Str
  originalQuery : Str
deriving DecidableEq

/-- The four `LIKE` patterns of one phase's `where` clause for the current
query text `cur` (lines 112-114 and 129-138):  `cur` followed by `%`, and the
three qualified-name patterns `%.cur%`, `%::cur%`, `%/cur%`. -/
def subNamePatterns (cur : Str) : List Str :=
  [cur ++ ['%'],
   '%' :: '.' :: (cur ++ ['%']),
   '%' :: ':' :: ':' :: (cur ++ ['%']),
   '%' :: '/' :: (cur ++ ['%'])]

/-- The disjunction of the four `LIKE` patterns for current query text `cur`
applied to a symbol name. -/
def matchClause (cur nm : Str) : Bool :=
  (subNamePatterns cur).any (fun p => likeMatch p nm)

/-- One SQL query of the two-phase search: filter the table by the `where`
clause, order it by the query's `order by` comparator `le`, and apply
`limit 100`. -/
def execRows (le : Row → Row → Bool) (table : List Row) (pred : Row → Bool) :
    List Row :=
  (List.insertionSort (fun a b => le a b = true) (table.filter pred)).take 100

/-- Rows of phase 1 (`withSubStrings = false`): the current query text is the
prepared query `t` itself, so the main pattern is the prefix pattern `t%`. -/
def phase1Rows (le : Row → Row → Bool) (table : List Row) (t : Str) :
    List Row :=
  execRows le table (fun r => matchClause t r.rname)

/-- Rows of phase 2 (`withSubStrings = true`): the current query text is
`%` ++ `t`, and the `notQuery` conjunct excludes every row matching the
phase-1 clause (lines 118-126). -/
def phase2Rows (le : Row → Row → Bool) (table : List Row) (t : Str) :
    List Row :=
  execRows le table
    (fun r => matchClause ('%' :: t) r.rname && !(matchClause t r.rname))

/-- The `while (found.size() < 100)` loop of `_runQuery` (lines 115-151),
which runs at most twice because `withSubStrings` flips to true after the
first iteration and the loop breaks after the second.  Returns the
accumulated `found` rows and whether the substring phase ran. -/
def twoPhaseLoop (le : Row → Row → Bool) (table : List Row) (t : Str) :
    List Row × Bool :=
  let found0 : List Row := []
  if found0.length < 100 then
    let found1 := found0 ++ phase1Rows le table t
    if found1.length < 100 then (found1 ++ phase2Rows le table t, true)
    else (found1, false)
  else (found0, false)

/-- Conversion of one found row into a `SearchResult` (lines 153-167): the
`zdash` variant appends `#anchor` to the path, the parent column is the SQL
literal `null` in both query shapes, and the name is normalized with no
parent hint. -/
def rowToResult (dtype : DocsetType) (docsetName preparedQuery : Str)
    (r : Row) : SearchResult :=
  let path := if dtype = DocsetType.zdash then r.rpath ++ '#' :: r.ranchor
              else r.rpath
  let nrm := normalizeName r.rname none
  SearchResult.mk nrm.1 (nrm.2.getD []) path docsetName preparedQuery

/-- All results contributed by one docset for prepared query `t`. -/
def docsetResults (le : Row → Row → Bool) (table : List Row)
    (dtype : DocsetType) (docsetName t : Str) : List SearchResult :=
  (twoPhaseLoop le table t).1.map (rowToResult dtype docsetName t)

/-- Modelled from the spec: the sort key of `SearchResult::operator<`
(`searchresult.h` is not under `src/`): ascending name length, then
case-insensitive name, then docset name, then path, lexicographically. -/
def searchResultKey (r : SearchResult) :
    Lex (Nat × Lex (Str × Lex (Str × Str))) :=
  toLex (r.name.length,
    toLex (r.name.map lowerA, toLex (r.docsetName, r.path)))

/-- The result ordering: comparison of the sort keys. -/
def resultLE (a b : SearchResult) : Prop :=
  searchResultKey a ≤ searchResultKey b

instance : DecidableRel resultLE := fun a b =>
  inferInstanceAs (Decidable (searchResultKey a ≤ searchResultKey b))

instance : IsTotal SearchResult resultLE :=
  ⟨fun a b => le_total (searchResultKey a) (searchResultKey b)⟩

instance : IsTrans SearchResult resultLE :=
  ⟨fun _ _ _ h1 h2 => le_trans h1 h2⟩

/-- Modelled from the spec and the Qt documentation of `qSort` (line 169):
`qSort` guarantees that the output is a permutation of the input ordered by
`SearchResult::operator<`; it is an unstable sort, so nothing beyond
permutation and sortedness is guaranteed. -/
def qSortSpec (input output : List SearchResult) : Prop :=
  output.Perm input ∧ output.Sorted resultLE

/-- The state of the query-generation machinery of `DocsetRegistry`:
`lastQuery` is the `m_lastQuery` counter, `pending` the FIFO queue of
`_runQuery(rawQuery, queryNum)` invocations posted by `Qt::QueuedConnection`,
and `published` records `m_queryResults` as the raw query and generation
number it was computed under. -/
structure QueryState where
  lastQuery : Nat
  pending : List (Str × Nat)
  published : Option (Str × Nat)
deriving DecidableEq

/-- `DocsetRegistry::runQuery` (lines 76-81): increment `m_lastQuery` and
post a queued `_runQuery` invocation carrying the new generation number. -/
def runQuery (s : QueryState) (q : Str) : QueryState :=
  { lastQuery := s.lastQuery + 1,
    pending := s.pending ++ [(q, s.lastQuery + 1)],
    published := s.published }

/-- `DocsetRegistry::invalidateQueries` (lines 83-86): increment
`m_lastQuery` without scheduling anything. -/
def invalidateQueries (s : QueryState) : QueryState :=
  { s with lastQuery := s.lastQuery + 1 }

/-- The entry check of `_runQuery` (lines 90-92): the invocation is stale if
its generation number differs from `m_lastQuery`. -/
def staleAtEntry (s : QueryState) (queryNum : Nat) : Bool :=
  queryNum != s.lastQuery

/-- The publish step of `_runQuery` (lines 169-174): after computing and
sorting, re-check the generation number; publish only if it is still
current, otherwise discard silently. -/
def publishStep (s : QueryState) (q : Str) (queryNum : Nat) : QueryState :=
  if queryNum != s.lastQuery then s
  else { s with published := some (q, queryNum) }

/-- One complete `_runQuery(q, queryNum)` execution with no interleaved
submission: the entry check followed by the publish step. -/
def runTask (s : QueryState) (t : Str × Nat) : QueryState :=
  if staleAtEntry s t.2 then s else publishStep s t.1 t.2

/-- The worker processing a list of queued `_runQuery` invocations in FIFO
order. -/
def processList (s : QueryState) : List (Str × Nat) → QueryState
  | [] => s
  | t :: ts => processList (runTask s t) ts

/-- The worker draining the whole pending queue with no further
submissions. -/
def drainQueue (s : QueryState) : QueryState :=
  processList { s with pending := [] } s.pending

/-- Modelled from the spec: one loaded docset as the registry sees it
(`docset.h` is not under `src/`): unique name, schema-variant tag, the
validity flag tested by `addDocset`, an open store handle, and the backing
symbol table. -/
structure DocsetM where
  dname : Str
  dtype : DocsetType
  valid : Bool
  handle : Nat
  table : List Row
deriving DecidableEq

/-- Modelled from the spec: a default-constructed `Docset` (inserted by
`QMap::operator[]` on a missing key) is not open, so its store yields no
rows. -/
def defaultDocset : DocsetM :=
  ⟨[], DocsetType.dash, false, 0, []⟩

/-- The error kind the spec requires `addDocset` to report on an invalid
docset. -/
inductive AddError
  | invalidDocset
deriving DecidableEq

/-- The error the spec requires the related-symbols lookup to fail with on an
unknown docset name. -/
inductive LookupError
  | notFound
deriving DecidableEq

/-- The registry's docset state: `m_docs` as an association list keyed by
docset name, plus the multiset of store handles closed so far (`db.close()`
calls). -/
structure RegState where
  docs : List (Str × DocsetM)
  closed : List Nat
deriving DecidableEq

/-- `QMap::value`-style lookup of a docset by name. -/
def lookupD (s : RegState) (n : Str) : Option DocsetM :=
  (s.docs.find? (fun e => decide (e.1 = n))).map (fun e => e.2)

/-- `DocsetRegistry::contains` (lines 29-32). -/
def containsD (s : RegState) (n : Str) : Bool :=
  (s.docs.find? (fun e => decide (e.1 = n))).isSome

/-- `DocsetRegistry::count` (lines 24-27). -/
def countD (s : RegState) : Nat :=
  s.docs.length

/-- `DocsetRegistry::remove` (lines 39-44): close the entry's store handle,
then drop the entry.  On a missing key `QMap::operator[]` default-constructs
the entry, whose (closed) store is then closed and removed again. -/
def removeD (s : RegState) (n : Str) : RegState :=
  match lookupD s n with
  | some d =>
    ⟨s.docs.eraseP (fun e => decide (e.1 = n)), s.closed ++ [d.handle]⟩
  | none => ⟨s.docs, s.closed ++ [defaultDocset.handle]⟩

/-- `QMap::operator[] = docset`: overwrite the entry under the key if
present, otherwise insert a new entry. -/
def mapInsert (s : RegState) (n : Str) (d : DocsetM) : RegState :=
  if containsD s n then
    ⟨s.docs.map (fun e => if e.1 = n then (n, d) else e), s.closed⟩
  else ⟨s.docs ++ [(n, d)], s.closed⟩

/-- `DocsetRegistry::addDocset` (lines 57-69): if the docset is invalid,
return silently (the `/// TODO: Emit error` comment marks the missing
report, so the emitted error is `none`); otherwise remove any existing entry
under the same name (closing its store) and insert the new docset. -/
def addDocset (s : RegState) (d : DocsetM) : RegState × Option AddError :=
  if !d.valid then (s, none)
  else
    let s1 := if containsD s d.dname then removeD s d.dname else s
    (mapInsert s1 d.dname d, none)

/-- `QMap::operator[]` on `m_docs` in a non-const method: return the entry,
default-inserting it when the key is missing (line 207). -/
def mapIndexD (s : RegState) (n : Str) : DocsetM × RegState :=
  match lookupD s n with
  | some d => (d, s)
  | none => (defaultDocset, ⟨s.docs ++ [(n, defaultDocset)], s.closed⟩)

/-- `QUrl::setFragment(NULL)` followed by `toString` (lines 204-206): the
page url is the path up to the first `#`. -/
def stripFragment (p : Str) : Str :=
  p.takeWhile (fun c => decide (c ≠ '#'))

/-- `DocsetRegistry::relatedLinks` (lines 200-238): look the docset up with
`QMap::operator[]`, strip the anchor from the path, select the rows whose
page matches (a `LIKE "url%%"` pattern for `dash`, an exact `zpath`
comparison for `zdash`), and build one `SearchResult` per row with the
normalized section name, an empty parent name, the reassembled path, the
docset name, and an empty query.  The result is wrapped in `Except` to state
the spec's `NotFound` requirement; the code itself never produces an
error. -/
def relatedLinks (s : RegState) (n pth : Str) :
    Except LookupError (List SearchResult) × RegState :=
  let er := mapIndexD s n
  let pageUrl := stripFragment pth
  let rows :=
    if er.1.dtype = DocsetType.zdash then
      er.1.table.filter (fun r => decide (r.rpath = pageUrl))
    else
      er.1.table.filter (fun r => likeMatch (pageUrl ++ ['%', '%']) r.rpath)
  (Except.ok (rows.map (fun r =>
      let sectionPath :=
        if er.1.dtype = DocsetType.zdash then r.rpath ++ '#' :: r.ranchor
        else r.rpath
      SearchResult.mk (normalizeName r.rname none).1 [] sectionPath n [])),
   er.2)

/- ------------------------------------------------------------------ -/
/- Helper lemmas about the string model.                              -/
/- ------------------------------------------------------------------ -/

theorem firstIdx_cons_none {d : Char} {ds s : Str} (h : d ∉ s) :
    firstIdx (d :: ds) s = none := by
  induction s with
  | nil => rfl
  | cons a s ih =>
    simp only [List.mem_cons, not_or] at h
    simp [firstIdx, listStartsWith, h.1, ih h.2]

theorem firstIdx_char_append {c : Char} (a t : Str) (h : c ∉ a) :
    firstIdx [c] (a ++ c :: t) = some a.length := by
  induction a with
  | nil => simp [firstIdx, listStartsWith]
  | cons x a ih =>
    simp only [List.mem_cons, not_or] at h
    simp [List.cons_append, firstIdx, listStartsWith, h.1, ih h.2]

theorem splitAux_chars (sep : Str) :
    ∀ (fuel : Nat) (s acc part : Str) (c : Char),
      part ∈ splitAux sep fuel s acc → c ∈ part → c ∈ s ∨ c ∈ acc := by
  intro fuel
  induction fuel with
  | zero =>
    intro s acc part c hp hc
    cases s with
    | nil =>
      simp only [splitAux, List.mem_singleton] at hp
      subst hp
      exact Or.inr (List.mem_reverse.mp hc)
    | cons d ds =>
      simp only [splitAux, List.mem_singleton] at hp
      subst hp
      rcases List.mem_append.mp hc with h | h
      · exact Or.inr (List.mem_reverse.mp h)
      · exact Or.inl h
  | succ fuel ih =>
    intro s acc part c hp hc
    cases s with
    | nil =>
      simp only [splitAux, List.mem_singleton] at hp
      subst hp
      exact Or.inr (List.mem_reverse.mp hc)
    | cons d ds =>
      simp only [splitAux] at hp
      by_cases h : listStartsWith sep (d :: ds) = true
      · rw [if_pos h] at hp
        rcases List.mem_cons.mp hp with h1 | h2
        · subst h1
          exact Or.inr (List.mem_reverse.mp hc)
        · rcases ih ((d :: ds).drop sep.length) [] part c h2 hc with h3 | h3
          · exact Or.inl (List.drop_subset _ _ h3)
          · exact absurd h3 (List.not_mem_nil c)
      · rw [if_neg h] at hp
        rcases ih ds (d :: acc) part c hp hc with h3 | h3
        · exact Or.inl (List.mem_cons.mpr (Or.inr h3))
        · rcases List.mem_cons.mp h3 with h4 | h4
          · exact Or.inl (List.mem_cons.mpr (Or.inl h4))
          · exact Or.inr h4

theorem splitOnSep_chars {sep s part : Str} {c : Char}
    (hp : part ∈ splitOnSep sep s) (hc : c ∈ part) : c ∈ s := by
  rcases splitAux_chars sep s.length s [] part c hp hc with h | h
  · exact h
  · exact absurd h (List.not_mem_nil c)

theorem getLastD_mem_or (l : List Str) :
    l.getLastD [] = [] ∨ l.getLastD [] ∈ l := by
  cases hl : l with
  | nil => exact Or.inl rfl
  | cons a t =>
    right
    rw [List.getLastD_eq_getLast?, List.getLast?_eq_getLast (a :: t) (by simp)]
    exact List.getLast_mem _

theorem splitStep_of_none {st : Str × Option Str} {sep : Str} (hint : Bool)
    (h : firstIdx sep st.1 = none) : splitStep hint st sep = st := by
  simp [splitStep, h]

theorem splitStep_of_zero {st : Str × Option Str} {sep : Str} (hint : Bool)
    (h : firstIdx sep st.1 = some 0) : splitStep hint st sep = st := by
  simp [splitStep, h]

theorem splitStep_fires {st : Str × Option Str} {sep : Str} {k : Nat}
    (h : firstIdx sep st.1 = some k) (hk : k ≠ 0) :
    splitStep true st sep =
      ((splitOnSep sep st.1).getLastD [],
        some ((splitOnSep sep st.1).dropLast.getLastD [])) := by
  simp [splitStep, h, hk]

theorem splitStep_eq (hint : Bool) (st : Str × Option Str) (sep : Str) :
    splitStep hint st sep = st ∨
      splitStep hint st sep =
        ((splitOnSep sep st.1).getLastD [],
          some ((splitOnSep sep st.1).dropLast.getLastD [])) := by
  unfold splitStep
  cases hF : firstIdx sep st.1 with
  | none => exact Or.inl rfl
  | some k =>
    show (if k ≠ 0 ∧ hint = true then
            ((splitOnSep sep st.1).getLastD [],
              some ((splitOnSep sep st.1).dropLast.getLastD []))
          else st) = st ∨
        (if k ≠ 0 ∧ hint = true then
            ((splitOnSep sep st.1).getLastD [],
              some ((splitOnSep sep st.1).dropLast.getLastD []))
          else st) =
          ((splitOnSep sep st.1).getLastD [],
            some ((splitOnSep sep st.1).dropLast.getLastD []))
    by_cases hcond : k ≠ 0 ∧ hint = true
    · right
      rw [if_pos hcond]
    · left
      rw [if_neg hcond]

theorem splitStep_chars {hint : Bool} {st : Str × Option Str} {sep : Str}
    {c : Char} (hc : c ∈ (splitStep hint st sep).1) : c ∈ st.1 := by
  rcases splitStep_eq hint st sep with h | h
  · rw [h] at hc
    exact hc
  · rw [h] at hc
    rcases getLastD_mem_or (splitOnSep sep st.1) with h2 | h2
    · rw [show ((splitOnSep sep st.1).getLastD [],
          some ((splitOnSep sep st.1).dropLast.getLastD [])).1
            = (splitOnSep sep st.1).getLastD [] from rfl, h2] at hc
      exact absurd hc (List.not_mem_nil c)
    · exact splitOnSep_chars h2 hc

theorem normalizeName_chars {s : Str} {c : Char}
    (hc : c ∈ (normalizeName s none).1) : c ∈ stripParens s := by
  unfold normalizeName at hc
  simp only [List.foldl, Option.isNone_none] at hc
  exact splitStep_chars (splitStep_chars (splitStep_chars hc))

theorem stripParens_of_no_paren {s : Str} (h : '(' ∉ s) :
    stripParens s = s := by
  simp [stripParens, firstIdx_cons_none h]

theorem trailingParenGroup_eq_false {s : Str} (h : '(' ∉ s) :
    trailingParenGroup s = false := by
  have h2 : ¬ ('(' ∈ s.dropLast) := fun hx => h (List.dropLast_subset s hx)
  unfold trailingParenGroup
  cases hg : s.getLast? with
  | none => rfl
  | some c => simp [h2]

/- ------------------------------------------------------------------ -/
/- Claim C4: separator decomposition in normalizeName.                -/
/- ------------------------------------------------------------------ -/

/-- Claim C4, counterexample: the claim predicts that only the first
qualifying separator (here `.`) is applied, so `a.b::c` would decompose into
display name `b::c` with parent `a`; the code's separator loop has no break
and re-splits the current display name with every later separator, producing
display name `c` with parent `b`. -/
theorem normalize_first_sep_counterexample :
    normalizeName ("a.b::c".toList) none = ("c".toList, some ("b".toList)) ∧
    claimSplitRule ("a.b::c".toList) = ("b::c".toList, some ("a".toList)) ∧
    normalizeName ("a.b::c".toList) none ≠ claimSplitRule ("a.b::c".toList) := by
  refine ⟨by decide, by decide, by decide⟩

/-- Claim C4, amended: the separators `.`, `::`, `/` are tried in that
priority order, and EACH separator that occurs in the current display name at
a first index other than 0 (with no parent hint) re-splits it on its last
occurrence, taking the final segment as display name and the segment before
the final separator as parent name; when no separator qualifies the stripped
name is unchanged with no parent, and when only `::` occurs in the name the
result is the single split on the last `::`; `std::vector::push_back`
normalizes to display name `push_back` with parent `vector`. -/
theorem normalize_separator_cascade :
    (∀ s : Str,
      (∀ sep ∈ [sepDot, sepCC, sepSlash],
        firstIdx sep (stripParens s) = none ∨
          firstIdx sep (stripParens s) = some 0) →
      normalizeName s none = (stripParens s, none)) ∧
    (∀ s : Str, '(' ∉ s → '.' ∉ s → '/' ∉ s →
      ∀ k : Nat, firstIdx sepCC s = some k → k ≠ 0 →
      normalizeName s none =
        ((splitOnSep sepCC s).getLastD [],
          some ((splitOnSep sepCC s).dropLast.getLastD []))) ∧
    normalizeName ("std::vector::push_back".toList) none =
      ("push_back".toList, some ("vector".toList)) := by
  refine ⟨?_, ?_, by decide⟩
  · intro s hsep
    unfold normalizeName
    simp only [List.foldl, Option.isNone_none]
    have h1 := hsep sepDot (by simp)
    have h2 := hsep sepCC (by simp)
    have h3 := hsep sepSlash (by simp)
    have e1 : splitStep true (stripParens s, none) sepDot =
        (stripParens s, none) := by
      rcases h1 with h | h
      · exact splitStep_of_none true h
      · exact splitStep_of_zero true h
    rw [e1]
    have e2 : splitStep true (stripParens s, none) sepCC =
        (stripParens s, none) := by
      rcases h2 with h | h
      · exact splitStep_of_none true h
      · exact splitStep_of_zero true h
    rw [e2]
    rcases h3 with h | h
    · exact splitStep_of_none true h
    · exact splitStep_of_zero true h
  · intro s hp hd hsl k hcc hk
    unfold normalizeName
    simp only [List.foldl, Option.isNone_none]
    rw [stripParens_of_no_paren hp]
    have e1 : splitStep true (s, none) sepDot = (s, none) :=
      splitStep_of_none true (firstIdx_cons_none hd)
    rw [e1]
    have e2 := @splitStep_fires (s, (none : Option Str)) sepCC k hcc hk
    rw [e2]
    refine splitStep_of_none true ?_
    rcases getLastD_mem_or (splitOnSep sepCC s) with h | h
    · rw [h]; rfl
    · exact firstIdx_cons_none (fun hmem => hsl (splitOnSep_chars h hmem))

/-- Claim C4, witness: a name whose only separator is `::` not at index 0
splits on its last occurrence. -/
theorem normalize_separator_cascade_witness :
    normalizeName ("x::y".toList) none = ("y".toList, some ("x".toList)) :=
  (normalize_separator_cascade.2.1 ("x::y".toList) (by decide) (by decide)
      (by decide) 1 (by decide) (by decide)).trans (by decide)

/- ------------------------------------------------------------------ -/
/- Claim C5: stripping of a trailing parenthesized group.             -/
/- ------------------------------------------------------------------ -/

/-- Claim C5, counterexample: for a raw name that begins with a left
parenthesis the method-name regular expression does not match, so the name is
left unchanged and the resulting display name retains the trailing
parenthesized group that was present in the raw name, refuting the claim's
universal "never contains a parenthesized suffix that was present in the
name's trailing position". -/
theorem normalize_paren_counterexample :
    trailingParenGroup ("(a)(b)".toList) = true ∧
    normalizeName ("(a)(b)".toList) none = ("(a)(b)".toList, none) ∧
    trailingParenGroup ((normalizeName ("(a)(b)".toList) none).1) = true := by
  refine ⟨by decide, by decide, by decide⟩

/-- Claim C5, amended: if the raw name is a nonempty identifier free of left
parentheses followed by a parenthesized group at the end, normalization
strips the group, the display name is the identifier only and contains no
parenthesized trailing group; names not of this shape (e.g. beginning with a
left parenthesis) are left unchanged by the stripping step and may retain a
trailing parenthesized group; `Read(Stream, int)` with no parent hint
normalizes to display name `Read`, parent absent. -/
theorem normalize_paren_strip (a mid : Str) (ha : a ≠ []) (hpa : '(' ∉ a) :
    stripParens (a ++ '(' :: (mid ++ [')'])) = a ∧
    ('(' ∉ (normalizeName (a ++ '(' :: (mid ++ [')'])) none).1) ∧
    trailingParenGroup ((normalizeName (a ++ '(' :: (mid ++ [')'])) none).1)
      = false ∧
    normalizeName ("Read(Stream, int)".toList) none =
      ("Read".toList, none) := by
  have hstrip : stripParens (a ++ '(' :: (mid ++ [')'])) = a := by
    cases a with
    | nil => exact absurd rfl ha
    | cons x a' =>
      unfold stripParens
      rw [firstIdx_char_append (x :: a') (mid ++ [')']) hpa]
      show (if (List.drop (a'.length + 1)
                ((x :: a') ++ '(' :: (mid ++ [')']))).getLastD ' ' = ')'
            then List.take (a'.length + 1) ((x :: a') ++ '(' :: (mid ++ [')']))
            else ((x :: a') ++ '(' :: (mid ++ [')']))) = x :: a'
      have hd : List.drop (a'.length + 1) ((x :: a') ++ '(' :: (mid ++ [')']))
          = '(' :: (mid ++ [')']) := by
        have h0 := List.drop_left (x :: a') ('(' :: (mid ++ [')']))
        exact h0
      rw [hd]
      rw [show ('(' :: (mid ++ [')'])) = (('(' :: mid) ++ [')']) from rfl]
      rw [List.getLastD_concat]
      rw [if_pos rfl]
      have h1 := List.take_left (x :: a') ('(' :: (mid ++ [')']))
      exact h1
  have hnop : '(' ∉ (normalizeName (a ++ '(' :: (mid ++ [')'])) none).1 := by
    intro hmem
    have := normalizeName_chars hmem
    rw [hstrip] at this
    exact hpa this
  exact ⟨hstrip, hnop, trailingParenGroup_eq_false hnop, by decide⟩

/-- Claim C5, witness: the claim's own example `Read(Stream, int)`. -/
theorem normalize_paren_strip_witness :
    stripParens ("Read".toList ++ '(' :: ("Stream, int".toList ++ [')'])) =
      "Read".toList :=
  (normalize_paren_strip ("Read".toList) ("Stream, int".toList) (by decide)
      (by decide)).1

/- ------------------------------------------------------------------ -/
/- Claim C1: query-generation guard.                                  -/
/- ------------------------------------------------------------------ -/

theorem runTask_stale (s : QueryState) (t : Str × Nat)
    (h : t.2 ≠ s.lastQuery) : runTask s t = s := by
  simp [runTask, staleAtEntry, h]

theorem runTask_lastQuery (s : QueryState) (t : Str × Nat) :
    (runTask s t).lastQuery = s.lastQuery := by
  unfold runTask publishStep staleAtEntry
  split_ifs <;> rfl

theorem processList_last_current (q2 : Str) :
    ∀ (ts : List (Str × Nat)) (s : QueryState),
      (∀ t ∈ ts, t.2 ≠ s.lastQuery) →
      (processList s (ts ++ [(q2, s.lastQuery)])).published
        = some (q2, s.lastQuery) := by
  intro ts
  induction ts with
  | nil =>
    intro s h
    simp [processList, runTask, staleAtEntry, publishStep]
  | cons t ts ih =>
    intro s h
    simp only [List.cons_append, processList]
    rw [runTask_stale s t (h t (by simp))]
    exact ih s (fun t' ht' => h t' (by simp [ht']))

/-- Claim C1: only results computed under the most recent generation value
are published.  A `_runQuery` invocation whose generation number is stale is
a no-op both at entry (line 91) and at the publish re-check (line 170), and
submitting `q` then immediately `q2` and letting the worker drain its queue
publishes the results computed for `q2` under generation `lastQuery + 2` —
never the superseded results for `q`. -/
theorem runQuery_generation_guard (s : QueryState) (q q2 : Str) (n : Nat)
    (hq : ∀ t ∈ s.pending, t.2 ≤ s.lastQuery) :
    (n ≠ s.lastQuery → publishStep s q n = s) ∧
    (staleAtEntry s n = true → runTask s (q, n) = s) ∧
    (drainQueue (runQuery (runQuery s q) q2)).published
      = some (q2, s.lastQuery + 2) ∧
    (drainQueue (runQuery (runQuery s q) q2)).published
      ≠ some (q, s.lastQuery + 1) := by
  have hpub : (drainQueue (runQuery (runQuery s q) q2)).published
      = some (q2, s.lastQuery + 2) := by
    have hform : drainQueue (runQuery (runQuery s q) q2)
        = processList ⟨s.lastQuery + 2, [], s.published⟩
            ((s.pending ++ [(q, s.lastQuery + 1)]) ++
              [(q2, s.lastQuery + 2)]) := rfl
    rw [hform]
    exact processList_last_current q2 (s.pending ++ [(q, s.lastQuery + 1)])
      ⟨s.lastQuery + 2, [], s.published⟩
      (by
        intro t ht
        rcases List.mem_append.mp ht with h1 | h1
        · have := hq t h1
          simp only []
          omega
        · simp only [List.mem_singleton] at h1
          subst h1
          simp only []
          omega)
  refine ⟨?_, ?_, hpub, ?_⟩
  · intro h
    simp [publishStep, h]
  · intro h
    simp only [runTask, h, if_true]
  · rw [hpub]
    intro hcontra
    have h2 := (Option.some.injEq _ _).mp hcontra
    have h3 := congrArg Prod.snd h2
    simp only [] at h3
    omega

/-- Claim C1, witness: from the initial state, submitting `"a"` then `"b"`
and draining the queue publishes the results for `"b"` under generation 2. -/
theorem runQuery_generation_guard_witness :
    (drainQueue (runQuery (runQuery ⟨0, [], none⟩ ("a".toList))
        ("b".toList))).published = some ("b".toList, 2) :=
  (runQuery_generation_guard ⟨0, [], none⟩ ("a".toList) ("b".toList) 5
    (by intro t ht; exact absurd ht (List.not_mem_nil t))).2.2.1

/- ------------------------------------------------------------------ -/
/- Claim C2: per-phase cap and substring fallback.                    -/
/- ------------------------------------------------------------------ -/

theorem execRows_length_le (le : Row → Row → Bool) (table : List Row)
    (pred : Row → Bool) : (execRows le table pred).length ≤ 100 := by
  unfold execRows
  rw [List.length_take]
  exact min_le_left _ _

/-- Claim C2: for every query and every docset, each search phase collects at
most 100 rows (the SQL `limit 100`), and the substring phase runs iff the
prefix phase produced fewer than 100 rows — otherwise the `while` loop stops
after phase 1 with the phase-1 rows alone. -/
theorem twoPhase_cap_and_fallback (le : Row → Row → Bool) (table : List Row)
    (t : Str) :
    (phase1Rows le table t).length ≤ 100 ∧
    (phase2Rows le table t).length ≤ 100 ∧
    ((twoPhaseLoop le table t).2 = true ↔
      (phase1Rows le table t).length < 100) ∧
    ((phase1Rows le table t).length < 100 →
      (twoPhaseLoop le table t).1
        = phase1Rows le table t ++ phase2Rows le table t) ∧
    (100 ≤ (phase1Rows le table t).length →
      (twoPhaseLoop le table t).1 = phase1Rows le table t) := by
  refine ⟨execRows_length_le le table _, execRows_length_le le table _,
    ?_, ?_, ?_⟩
  · by_cases h : (phase1Rows le table t).length < 100
    · simp [twoPhaseLoop, h]
    · simp [twoPhaseLoop, h]
  · intro h
    simp [twoPhaseLoop, h]
  · intro h
    have h2 : ¬ (phase1Rows le table t).length < 100 := by omega
    simp [twoPhaseLoop, h2]

/-- Claim C2, witness: on an empty table phase 1 under-fills the cap, so the
loop runs the substring phase and returns both phases' rows. -/
theorem twoPhase_cap_and_fallback_witness :
    (twoPhaseLoop (fun _ _ => true) [] ("x".toList)).1
      = phase1Rows (fun _ _ => true) [] ("x".toList)
        ++ phase2Rows (fun _ _ => true) [] ("x".toList) :=
  (twoPhase_cap_and_fallback (fun _ _ => true) [] ("x".toList)).2.2.2.1
    (by decide)

/- ------------------------------------------------------------------ -/
/- Claim C3: phase 2 excludes every phase-1 row.                      -/
/- ------------------------------------------------------------------ -/

theorem mem_execRows {le : Row → Row → Bool} {table : List Row}
    {pred : Row → Bool} {r : Row} (h : r ∈ execRows le table pred) :
    r ∈ table ∧ pred r = true := by
  unfold execRows at h
  have h2 := List.take_subset 100 _ h
  have h3 := (List.perm_insertionSort
    (fun a b => le a b = true) (table.filter pred)).mem_iff.mp h2
  exact List.mem_filter.mp h3

/-- Claim C3: the substring phase never returns a row already returned by
the prefix phase for the same docset — its `where` clause conjoins the
negation (`notQuery`) of the entire phase-1 predicate, covering the bare
prefix pattern and the three qualified-name patterns. -/
theorem phase2_disjoint_phase1 (le : Row → Row → Bool) (table : List Row)
    (t : Str) (r : Row) (h2 : r ∈ phase2Rows le table t) :
    r ∉ phase1Rows le table t := by
  intro h1
  have hp2 := (mem_execRows h2).2
  have hp1 := (mem_execRows h1).2
  rw [Bool.and_eq_true, Bool.not_eq_true'] at hp2
  rw [hp1] at hp2
  exact absurd hp2.2 (by simp)

/-- Claim C3, witness: the row named `ab` matches the substring phase for
term `b` but not the prefix phase, so it is excluded from phase 1. -/
theorem phase2_disjoint_phase1_witness :
    (⟨"ab".toList, [], [], []⟩ : Row)
      ∉ phase1Rows (fun _ _ => true) [⟨"ab".toList, [], [], []⟩]
        ("b".toList) :=
  phase2_disjoint_phase1 (fun _ _ => true) [⟨"ab".toList, [], [], []⟩]
    ("b".toList) ⟨"ab".toList, [], [], []⟩ (by decide)

/- ------------------------------------------------------------------ -/
/- Claim C6: global result ordering before publication.               -/
/- ------------------------------------------------------------------ -/

/-- Claim C6, counterexample: two results with equal (name length, name,
docset name, path) sort keys but different parent names; the output with the
two swapped is also a valid outcome of the modelled `qSort` contract (Qt's
`qSort` is an unstable sort), so insertion order is not guaranteed to be
kept. -/
theorem qsort_stability_counterexample :
    qSortSpec
      [SearchResult.mk ("a".toList) ("x".toList) ("p".toList) ("d".toList)
          ("q".toList),
        SearchResult.mk ("a".toList) ("y".toList) ("p".toList) ("d".toList)
          ("q".toList)]
      [SearchResult.mk ("a".toList) ("y".toList) ("p".toList) ("d".toList)
          ("q".toList),
        SearchResult.mk ("a".toList) ("x".toList) ("p".toList) ("d".toList)
          ("q".toList)] ∧
    [SearchResult.mk ("a".toList) ("y".toList) ("p".toList) ("d".toList)
        ("q".toList),
      SearchResult.mk ("a".toList) ("x".toList) ("p".toList) ("d".toList)
        ("q".toList)]
      ≠
    [SearchResult.mk ("a".toList) ("x".toList) ("p".toList) ("d".toList)
        ("q".toList),
      SearchResult.mk ("a".toList) ("y".toList) ("p".toList) ("d".toList)
        ("q".toList)] := by
  refine ⟨⟨List.Perm.swap _ _ [], ?_⟩, by decide⟩
  refine List.sorted_cons.mpr ⟨?_, List.sorted_singleton _⟩
  intro b hb
  rw [List.mem_singleton.mp hb]
  exact le_of_eq (by rfl)

/-- Claim C6, amended: before publication the accumulated result set is
ordered by ascending name length, then case-insensitive name, then docset
name, then path; this ordering is total, and a sorted permutation always
exists — but the relative order of results with equal sort keys is
unspecified, because `qSort` is not a stable sort. -/
theorem qsort_total_order :
    (∀ a b : SearchResult, resultLE a b ∨ resultLE b a) ∧
    (∀ input : List SearchResult,
      qSortSpec input (List.insertionSort resultLE input)) := by
  constructor
  · intro a b
    exact le_total (searchResultKey a) (searchResultKey b)
  · intro input
    exact ⟨List.perm_insertionSort resultLE input,
      List.sorted_insertionSort resultLE input⟩

/- ------------------------------------------------------------------ -/
/- Claim C7: addDocset replaces an existing entry.                    -/
/- ------------------------------------------------------------------ -/

theorem find_none_of_key_not_mem {l : List (Str × DocsetM)} {n : Str}
    (h : n ∉ l.map Prod.fst) :
    l.find? (fun e => decide (e.1 = n)) = none := by
  induction l with
  | nil => rfl
  | cons a l ih =>
    simp only [List.map_cons, List.mem_cons, not_or] at h
    rw [List.find?_cons_of_neg _
      (by simp only [decide_eq_true_eq]; exact fun he => h.1 he.symm)]
    exact ih h.2

theorem eraseP_key_find_none {l : List (Str × DocsetM)} {n : Str}
    (hnd : (l.map Prod.fst).Nodup) :
    (l.eraseP (fun e => decide (e.1 = n))).find?
      (fun e => decide (e.1 = n)) = none := by
  induction l with
  | nil => rfl
  | cons a l ih =>
    simp only [List.map_cons, List.nodup_cons] at hnd
    by_cases hp : a.1 = n
    · rw [List.eraseP_cons_of_pos (by simp [hp])]
      apply find_none_of_key_not_mem
      rw [← hp]
      exact hnd.1
    · rw [List.eraseP_cons_of_neg (by simp [hp])]
      rw [List.find?_cons_of_neg _ (by simp [hp])]
      exact ih hnd.2

/-- Claim C7: adding a valid docset whose name is already present first
closes the prior entry's store handle (via `remove`), then overwrites the
entry, so `count()` is unchanged, the old handle has been closed, and the
entry under the name is now the new docset. -/
theorem addDocset_replaces (s : RegState) (d old : DocsetM)
    (hv : d.valid = true) (hold : lookupD s d.dname = some old)
    (hnd : (s.docs.map Prod.fst).Nodup) :
    countD (addDocset s d).1 = countD s ∧
    old.handle ∈ (addDocset s d).1.closed ∧
    lookupD (addDocset s d).1 d.dname = some d := by
  obtain ⟨e, he, he2⟩ :
      ∃ e, s.docs.find? (fun x => decide (x.1 = d.dname)) = some e ∧
        e.2 = old := by
    unfold lookupD at hold
    cases hf : s.docs.find? (fun x => decide (x.1 = d.dname)) with
    | none => rw [hf] at hold; simp at hold
    | some e =>
      rw [hf] at hold
      simp only [Option.map_some', Option.some.injEq] at hold
      exact ⟨e, rfl, hold⟩
  have hcont : containsD s d.dname = true := by
    unfold containsD
    rw [he]
    rfl
  have hstep : addDocset s d = (mapInsert (removeD s d.dname) d.dname d,
      none) := by
    unfold addDocset
    rw [hv]
    simp [hcont]
  have hrem : removeD s d.dname =
      ⟨s.docs.eraseP (fun e => decide (e.1 = d.dname)),
        s.closed ++ [old.handle]⟩ := by
    unfold removeD
    rw [hold]
  have hfe : (s.docs.eraseP (fun e => decide (e.1 = d.dname))).find?
      (fun e => decide (e.1 = d.dname)) = none := eraseP_key_find_none hnd
  have hcont2 : containsD (removeD s d.dname) d.dname = false := by
    rw [hrem]
    unfold containsD
    simp only []
    rw [hfe]
    rfl
  have hins : mapInsert (removeD s d.dname) d.dname d =
      ⟨(s.docs.eraseP (fun e => decide (e.1 = d.dname))) ++ [(d.dname, d)],
        s.closed ++ [old.handle]⟩ := by
    unfold mapInsert
    rw [hcont2, hrem]
    simp
  have hlen : (s.docs.eraseP (fun e => decide (e.1 = d.dname))).length + 1
      = s.docs.length := by
    have hmem := List.mem_of_find?_eq_some he
    have hpe := List.find?_some he
    rw [List.length_eraseP_of_mem hmem hpe]
    have hpos : 1 ≤ s.docs.length :=
      List.length_pos.mpr (List.ne_nil_of_mem hmem)
    omega
  refine ⟨?_, ?_, ?_⟩
  · rw [hstep]
    simp only []
    rw [hins]
    unfold countD
    simp only []
    rw [List.length_append]
    simpa using hlen
  · rw [hstep]
    simp only []
    rw [hins]
    simp
  · rw [hstep]
    simp only []
    rw [hins]
    unfold lookupD
    simp only []
    rw [List.find?_append, hfe]
    simp [List.find?]

/-- Claim C7, witness: replacing the docset named `N` (handle 3) with a new
docset of the same name (handle 4). -/
theorem addDocset_replaces_witness :
    countD (addDocset
        ⟨[(("N".toList), ⟨"N".toList, DocsetType.dash, true, 3, []⟩)], []⟩
        ⟨"N".toList, DocsetType.zdash, true, 4, []⟩).1
      = countD
        ⟨[(("N".toList), ⟨"N".toList, DocsetType.dash, true, 3, []⟩)], []⟩ ∧
    (3 : Nat) ∈ (addDocset
        ⟨[(("N".toList), ⟨"N".toList, DocsetType.dash, true, 3, []⟩)], []⟩
        ⟨"N".toList, DocsetType.zdash, true, 4, []⟩).1.closed ∧
    lookupD (addDocset
        ⟨[(("N".toList), ⟨"N".toList, DocsetType.dash, true, 3, []⟩)], []⟩
        ⟨"N".toList, DocsetType.zdash, true, 4, []⟩).1 ("N".toList)
      = some ⟨"N".toList, DocsetType.zdash, true, 4, []⟩ :=
  addDocset_replaces
    ⟨[(("N".toList), ⟨"N".toList, DocsetType.dash, true, 3, []⟩)], []⟩
    ⟨"N".toList, DocsetType.zdash, true, 4, []⟩
    ⟨"N".toList, DocsetType.dash, true, 3, []⟩
    rfl (by decide) (by decide)

/- ------------------------------------------------------------------ -/
/- Claim C8: invalid docset handling in addDocset.                    -/
/- ------------------------------------------------------------------ -/

/-- Claim C8, counterexample: adding an invalid docset reports nothing — the
emitted error is `none`, not the structured `InvalidDocset` failure the claim
requires (the code's `/// TODO: Emit error` comment marks the missing
report). -/
theorem addDocset_invalid_counterexample :
    (addDocset ⟨[], []⟩ ⟨"B".toList, DocsetType.dash, false, 7, []⟩).2
      = none ∧
    (none : Option AddError) ≠ some AddError.invalidDocset := by
  exact ⟨rfl, by simp⟩

/-- Claim C8, amended: for an invalid docset, `addDocset` leaves the registry
state unchanged (no entry added or removed, no handle closed) and reports
nothing at all — a silent no-op, not a structured `InvalidDocset` failure. -/
theorem addDocset_invalid_noop (s : RegState) (d : DocsetM)
    (h : d.valid = false) : addDocset s d = (s, none) := by
  simp [addDocset, h]

/-- Claim C8, witness: a concrete invalid docset is silently ignored. -/
theorem addDocset_invalid_noop_witness :
    addDocset ⟨[], []⟩ ⟨"C".toList, DocsetType.dash, false, 9, []⟩
      = (⟨[], []⟩, none) :=
  addDocset_invalid_noop ⟨[], []⟩
    ⟨"C".toList, DocsetType.dash, false, 9, []⟩ rfl

/- ------------------------------------------------------------------ -/
/- Claim C9: related-symbols lookup on an unknown docset name.        -/
/- ------------------------------------------------------------------ -/

/-- Claim C9, counterexample: with no docset loaded, `relatedLinks` on an
unknown name returns an ordinary (empty) result list, not the `NotFound`
failure the claim requires — `QMap::operator[]` silently default-constructs
the missing entry and the query against its closed store yields no rows. -/
theorem relatedLinks_unknown_counterexample :
    (relatedLinks ⟨[], []⟩ ("F".toList) ("p".toList)).1 = Except.ok [] ∧
    (Except.ok ([] : List SearchResult) :
        Except LookupError (List SearchResult))
      ≠ Except.error LookupError.notFound := by
  exact ⟨rfl, fun h => Except.noConfusion h⟩

/-- Claim C9, amended: for every docset name not present in the registry,
`relatedLinks` returns an ordinary empty result list (the default-constructed
entry's store yields no rows); no `NotFound` error is produced. -/
theorem relatedLinks_unknown_empty (s : RegState) (n pth : Str)
    (h : containsD s n = false) :
    (relatedLinks s n pth).1 = Except.ok [] := by
  have hl : lookupD s n = none := by
    unfold containsD at h
    unfold lookupD
    cases hf : s.docs.find? (fun e => decide (e.1 = n)) with
    | none => rfl
    | some e =>
      rw [hf] at h
      simp at h
  simp [relatedLinks, mapIndexD, hl, defaultDocset]

/-- Claim C9, witness: lookup of the unknown docset name `G`. -/
theorem relatedLinks_unknown_empty_witness :
    (relatedLinks ⟨[], []⟩ ("G".toList) ("q".toList)).1 = Except.ok [] :=
  relatedLinks_unknown_empty ⟨[], []⟩ ("G".toList) ("q".toList) rfl

/- ------------------------------------------------------------------ -/
/- Claim C10: relatedLinks discards parent and query.                 -/
/- ------------------------------------------------------------------ -/

/-- Claim C10: every `SearchResult` built by `relatedLinks` carries an empty
parent name and an empty original query — the parent computed by
`normalizeName` is discarded, the constructor receiving `QString()` for both
fields (line 234). -/
theorem relatedLinks_discards_parent (s : RegState) (n pth : Str)
    (rs : List SearchResult) (r : SearchResult)
    (hok : (relatedLinks s n pth).1 = Except.ok rs) (hr : r ∈ rs) :
    r.parentName = [] ∧ r.originalQuery = [] := by
  simp only [relatedLinks, Except.ok.injEq] at hok
  rw [← hok] at hr
  obtain ⟨x, hx, hfx⟩ := List.mem_map.mp hr
  rw [← hfx]
  exact ⟨rfl, rfl⟩

/-- Claim C10, witness: a docset page containing the qualified symbol `A.b`;
its related link is published with the normalized name `b` but an empty
parent name and empty query. -/
theorem relatedLinks_discards_parent_witness :
    (SearchResult.mk ("b".toList) [] ("p".toList) ("D".toList)
        []).parentName = [] ∧
    (SearchResult.mk ("b".toList) [] ("p".toList) ("D".toList)
        []).originalQuery = [] :=
  relatedLinks_discards_parent
    ⟨[(("D".toList), ⟨"D".toList, DocsetType.dash, true, 1,
        [⟨"A.b".toList, [], "p".toList, []⟩]⟩)], []⟩
    ("D".toList) ("p".toList)
    [SearchResult.mk ("b".toList) [] ("p".toList) ("D".toList) []]
    (SearchResult.mk ("b".toList) [] ("p".toList) ("D".toList) [])
    rfl (List.mem_singleton.mpr rfl)

end Zeal
